import Mathlib

/-!
Verification development for the conversational RAG support agent in
`cx_support_agent.py`.

Texts are modelled as `List Char`.  Python's regex flag `re.IGNORECASE` is
modelled by comparing lowercased characters (the texts involved are ASCII),
Python's `str.strip()` and the regex class `\s` by the six ASCII whitespace
characters.  Loggers are no-ops and are omitted.  External collaborators
(the retriever, the LLM completion service, UUID generation) are oracles
carried in an `Env` record; every exception a collaborator can raise is an
explicit outcome constructor, so the embedded functions are total and the
`try/except` ladders of the source become pattern matches.
-/

/-- Texts are lists of characters. -/
abbrev Str : Type := List Char

/-- Shorthand to turn a string literal into a `Str`. -/
def txt (s : String) : Str := s.toList

/-- The six ASCII whitespace characters: model of Python's `\s` and of the
default character set of `str.strip()`. -/
def isSpace (c : Char) : Bool :=
  c == ' ' || c == '\t' || c == '\n' || c == '\r' || c == '\x0b' || c == '\x0c'

/-- Greedy `\s*`: drop the maximal run of leading whitespace. -/
def dropSpaces (s : Str) : Str := s.dropWhile isSpace

/-- Drop the maximal run of trailing whitespace. -/
def dropTrailingSpaces : Str → Str
  | [] => []
  | c :: cs =>
    let r := dropTrailingSpaces cs
    if r.isEmpty && isSpace c then [] else c :: r

/-- Python's `str.strip()`: remove leading and trailing whitespace. -/
def pyStrip (s : Str) : Str := dropTrailingSpaces (dropSpaces s)

/-- Case-insensitive anchored match: `matchCI pat s` succeeds iff the
lowercasing of a prefix of `s` is exactly `pat` (given in lowercase), and
returns the remainder of `s` after that prefix. -/
def matchCI : Str → Str → Option Str
  | [], s => some s
  | _ :: _, [] => none
  | p :: ps, c :: cs => if c.toLower = p then matchCI ps cs else none

/-- Case-insensitive containment: some position of `s` starts a `matchCI`
match of `pat`. -/
def containsCI (pat : Str) : Str → Bool
  | [] => (matchCI pat []).isSome
  | c :: cs => (matchCI pat (c :: cs)).isSome || containsCI pat cs

/-- The scaffolding label of the first two rewrite passes, lowercased:
`Final Answer:`. -/
def labelPat : Str := txt "final answer:"

/-- The disallowed placeholder pattern of the third rewrite pass,
lowercased: `[email protected]`. -/
def emailPat : Str := txt "[email protected]"

/-- The substitute phrase of the third rewrite pass. -/
def replTxt : Str := txt "the correct email address"

/-- First rewrite pass, `re.sub(r'^Final Answer:\s*', '', output, flags=re.IGNORECASE)`:
the pattern is anchored, so at most the leading label and the whitespace
after it are removed. -/
def sub1 (s : Str) : Str :=
  match matchCI labelPat s with
  | some r => dropSpaces r
  | none => s

/-- Anchored attempt of the pattern `\n\s*Final Answer:\s*` of the second
rewrite pass; on success returns the text after the match. -/
def trySub2 : Str → Option Str
  | [] => none
  | c :: rest =>
    if c = '\n' then
      match matchCI labelPat (dropSpaces rest) with
      | some r => some (dropSpaces r)
      | none => none
    else none

theorem matchCI_length : ∀ (pat s r : Str), matchCI pat s = some r →
    r.length + pat.length = s.length := by
  intro pat
  induction pat with
  | nil => intro s r h; cases h; simp [matchCI]
  | cons p ps ih =>
    intro s r h
    cases s with
    | nil => simp [matchCI] at h
    | cons c cs =>
      simp only [matchCI] at h
      split at h
      · have := ih cs r h
        simp [List.length_cons]; omega
      · exact absurd h (by simp)

theorem dropSpaces_length_le (s : Str) : (dropSpaces s).length ≤ s.length := by
  induction s with
  | nil => simp [dropSpaces]
  | cons c cs ih =>
    by_cases h : isSpace c
    · simpa [dropSpaces, List.dropWhile_cons, h] using Nat.le_succ_of_le ih
    · simp [dropSpaces, List.dropWhile_cons, h]

theorem trySub2_length : ∀ (s r : Str), trySub2 s = some r → r.length < s.length := by
  intro s r h
  cases s with
  | nil => simp [trySub2] at h
  | cons c rest =>
    simp only [trySub2] at h
    split at h
    · split at h
      · rename_i r2 hm
        cases h
        have h1 := matchCI_length labelPat (dropSpaces rest) r2 hm
        have h2 := dropSpaces_length_le rest
        have h3 := dropSpaces_length_le r2
        simp only [labelPat, txt] at h1
        simp only [List.length_cons]
        omega
      · exact absurd h (by simp)
    · exact absurd h (by simp)

/-- Second rewrite pass with explicit fuel (the fuel makes the recursion
structural, so the function reduces in the kernel):
`re.sub(r'\n\s*Final Answer:\s*', '\n', output, flags=re.IGNORECASE)`.
`re.sub` scans left to right, replaces each non-overlapping match with a
newline and resumes after the match. -/
def sub2F : Nat → Str → Str
  | _, [] => []
  | 0, s => s
  | fuel + 1, c :: cs =>
    match trySub2 (c :: cs) with
    | some r => '\n' :: sub2F fuel r
    | none => c :: sub2F fuel cs

/-- Second rewrite pass. -/
def sub2 (s : Str) : Str := sub2F s.length s

/-- Third rewrite pass with explicit fuel:
`re.sub(r'\[email protected\]', 'the correct email address', output, flags=re.IGNORECASE)`. -/
def sub3F : Nat → Str → Str
  | _, [] => []
  | 0, s => s
  | fuel + 1, c :: cs =>
    match matchCI emailPat (c :: cs) with
    | some r => replTxt ++ sub3F fuel r
    | none => c :: sub3F fuel cs

/-- Third rewrite pass. -/
def sub3 (s : Str) : Str := sub3F s.length s

/-- The sanitizer `strip_artifacts` (logging omitted): three `re.sub`
passes, each followed by `str.strip()`. -/
def strip_artifacts (s : Str) : Str :=
  pyStrip (sub3 (pyStrip (sub2 (pyStrip (sub1 s)))))

set_option maxRecDepth 20000

/-- Exact (case-sensitive) anchored match, used by Python's `str.replace`. -/
def matchStr : Str → Str → Option Str
  | [], s => some s
  | _ :: _, [] => none
  | p :: ps, c :: cs => if c = p then matchStr ps cs else none

theorem matchStr_length : ∀ (pat s r : Str), matchStr pat s = some r →
    r.length + pat.length = s.length := by
  intro pat
  induction pat with
  | nil => intro s r h; cases h; simp [matchStr]
  | cons p ps ih =>
    intro s r h
    cases s with
    | nil => simp [matchStr] at h
    | cons c cs =>
      simp only [matchStr] at h
      split at h
      · have := ih cs r h
        simp [List.length_cons]; omega
      · exact absurd h (by simp)

/-- Python `s.replace(pat, rep)` for a non-empty pattern `p :: ps`, with
fuel making the left-to-right non-overlapping scan structural. -/
def replaceF (p : Char) (ps rep : Str) : Nat → Str → Str
  | _, [] => []
  | 0, s => s
  | fuel + 1, c :: cs =>
    match matchStr (p :: ps) (c :: cs) with
    | some r => rep ++ replaceF p ps rep fuel r
    | none => c :: replaceF p ps rep fuel cs

/-- Python `s.replace(pat, rep)` (the source only calls it with non-empty
patterns, so the empty-pattern case is irrelevant and returns `s`). -/
def pyReplace (s pat rep : Str) : Str :=
  match pat with
  | [] => s
  | p :: ps => replaceF p ps rep s.length s

/-- Number of retained exchanges, `k=5` in `ConversationBufferWindowMemory`. -/
def K : Nat := 5

/-- Model of `ConversationBufferWindowMemory(k=5, memory_key="chat_history",
input_key="question", return_messages=False)`.  The underlying
`chat_memory` grows without bound; the window of the last `k` exchanges is
applied when the buffer is read.  Messages are appended in
(question, answer) pairs, so they are modelled as a list of pairs. -/
structure WindowMemory where
  msgs : List (Str × Str)
deriving DecidableEq

/-- Fresh empty session. -/
def emptyMemory : WindowMemory := ⟨[]⟩

/-- `memory.save_context({"question": q}, {"output": a})`: append one
exchange to the underlying message list. -/
def save_context (m : WindowMemory) (q a : Str) : WindowMemory :=
  ⟨m.msgs ++ [(q, a)]⟩

/-- The window `chat_memory.messages[-k*2:]` seen when the memory is read:
the most recent `K` exchanges, oldest first. -/
def windowExchanges (m : WindowMemory) : List (Str × Str) :=
  m.msgs.drop (m.msgs.length - K)

/-- `get_buffer_string` of the windowed messages: lines `Human: q` and
`AI: a`, joined with newlines; empty when there are no messages. -/
def bufferString (m : WindowMemory) : Str :=
  match (windowExchanges m).map
      (fun e => txt "Human: " ++ e.1 ++ txt "\nAI: " ++ e.2) with
  | [] => []
  | l :: ls => l ++ (ls.map (fun x => '\n' :: x)).flatten

/-- `format_chat_history` (logging omitted): sentinel text for an empty
buffer, otherwise a header plus the buffer with `Human: ` rewritten to
`User: ` and `Assistant: ` rewritten to `AI: `.  Its internal `try/except`
guards operations that are total here, so the error branch is dead. -/
def format_chat_history (m : WindowMemory) : Str :=
  match bufferString m with
  | [] => txt "No previous conversation history."
  | c :: cs =>
    txt "Conversation History:\n" ++
      pyReplace (pyReplace (c :: cs) (txt "Human: ") (txt "User: "))
        (txt "Assistant: ") (txt "AI: ")

/-- Outcome of `retriever.invoke(input_str)`: a list of documents
(each modelled by its `page_content` string) or a raised exception. -/
inductive RetrOutcome where
  | ok (docs : List Str)
  | err
deriving DecidableEq

/-- The bundle the prompt template is filled with; consumed by the
completion-service oracle. -/
structure GenInput where
  domain_instructions : Str
  context : Str
  chat_history : Str
  question : Str
deriving DecidableEq

/-- Outcome of invoking the LLM chain: text, a `LangChainException`, or any
other exception (this also covers `get_llm` raising `ValueError` for a
missing API key, which the source catches in the same generic branch). -/
inductive GenOutcome where
  | ok (t : Str)
  | langchainErr
  | otherErr
deriving DecidableEq

/-- External collaborators and failure switches of one query:
`get_retriever()` (None when unavailable), the retriever invocation, the
domain-instructions global, the completion service, whether
`memory.save_context` raises, whether `ConversationBufferWindowMemory(...)`
raises, and the UUID the facade would generate for a missing
conversation id. -/
structure Env where
  domain_instructions : Str
  retriever : Option (Str → RetrOutcome)
  llm : GenInput → GenOutcome
  memSaveFails : Bool
  memInitFails : Bool
  freshConvId : Str

def msgEmptyQuery : Str :=
  txt "I\x27m sorry, it seems you didn\x27t provide a question. How can I assist you today?"

def msgRetrNone : Str :=
  txt "I\x27m sorry, we\x27re experiencing an issue with our information system. Please try again later or contact support."

def msgRetrRaise : Str :=
  txt "I\x27m sorry, I couldn\x27t retrieve the necessary information. Please try rephrasing your question or contact our support team."

def msgLangchain : Str :=
  txt "I\x27m sorry, there was an issue processing your request. Please try again or contact support for assistance."

def msgOtherGen : Str :=
  txt "An unexpected error occurred. Please try again later or reach out to our support team."

def msgNoQuestion : Str :=
  txt "It looks like you didn\x27t ask a question. How can I help you today?"

def msgMemSetup : Str :=
  txt "I\x27m sorry, there was an issue setting up the conversation. Please try again."

/-- `"\n\n".join(...)` over the retained document contents. -/
def joinSep (sep : Str) : List Str → Str
  | [] => []
  | [x] => x
  | x :: y :: xs => x ++ sep ++ joinSep sep (y :: xs)

/-- `"\n\n".join(doc.page_content for doc in docs if doc.page_content) if docs else ""`. -/
def buildContext (docs : List Str) : Str :=
  joinSep (txt "\n\n") (docs.filter (fun d => !d.isEmpty))

/-- `handle_query(input_str, query_id, memory, conversation_id)` (logging
omitted; the query id is only logged, so it is dropped).  Every exception
of a collaborator is an explicit outcome, matched exactly where the source
catches it; the function returns the response text and the memory it
leaves behind (the source mutates the session in place). -/
def handle_query (env : Env) (input_str : Str) (memory : WindowMemory) :
    Str × WindowMemory :=
  if pyStrip input_str = [] then (msgEmptyQuery, memory)
  else
    match env.retriever with
    | none => (msgRetrNone, memory)
    | some retr =>
      match retr input_str with
      | .err => (msgRetrRaise, memory)
      | .ok docs =>
        match env.llm ⟨env.domain_instructions, buildContext docs,
            format_chat_history memory, input_str⟩ with
        | .langchainErr => (msgLangchain, memory)
        | .otherErr => (msgOtherGen, memory)
        | .ok out =>
          let ans := strip_artifacts out
          if env.memSaveFails then (ans, memory)
          else (ans, save_context memory input_str ans)

/-- The global `memories` dictionary: an association list keyed by
conversation id (keys are kept unique by the operations below). -/
abbrev Store : Type := List (Str × WindowMemory)

def storeLookup : Store → Str → Option WindowMemory
  | [], _ => none
  | (k, v) :: rest, key => if k = key then some v else storeLookup rest key

def storeSet : Store → Str → WindowMemory → Store
  | [], key, v => [(key, v)]
  | (k, w) :: rest, key, v =>
    if k = key then (k, v) :: rest else (k, w) :: storeSet rest key v

/-- `conversation_id or str(uuid.uuid4())`: the empty string is falsy, so
a missing or empty id is replaced by the fresh UUID. -/
def chosenId (env : Env) : Option Str → Str
  | none => env.freshConvId
  | some c => if c = [] then env.freshConvId else c

/-- The structured result of `answer_question`. -/
structure AQResult where
  answer : Str
  conversation_id : Str
deriving DecidableEq

/-- `answer_question(user_question, conversation_id)` (logging omitted):
resolve the conversation id, short-circuit empty questions, lazily create
the session (its constructor may raise), delegate to `handle_query`, and
return the answer with the conversation id and the updated store. -/
def answer_question (env : Env) (store : Store) (user_question : Str)
    (conversation_id : Option Str) : AQResult × Store :=
  let cid := chosenId env conversation_id
  if pyStrip user_question = [] then (⟨msgNoQuestion, cid⟩, store)
  else
    match storeLookup store cid with
    | none =>
      if env.memInitFails then (⟨msgMemSetup, cid⟩, store)
      else
        let st1 := storeSet store cid emptyMemory
        let r := handle_query env user_question emptyMemory
        (⟨r.1, cid⟩, storeSet st1 cid r.2)
    | some mem =>
      let r := handle_query env user_question mem
      (⟨r.1, cid⟩, storeSet store cid r.2)

/-- Sequential successful conversation driver: feed the questions one by
one through `answer_question` under one conversation id. -/
def runConversation (env : Env) (cid : Str) : List Str → Store → Store
  | [], st => st
  | q :: qs, st => runConversation env cid qs (answer_question env st q (some cid)).2

/-- An environment in which every stage succeeds: memory construction and
persistence work, a retriever is available and never raises, and the
completion service returns text. -/
def envSuccessful (env : Env) : Prop :=
  env.memInitFails = false ∧ env.memSaveFails = false ∧
    ∃ retr, env.retriever = some retr ∧
      (∀ q, ∃ docs, retr q = RetrOutcome.ok docs) ∧
      (∀ p, ∃ t, env.llm p = GenOutcome.ok t)

theorem storeLookup_set_self (st : Store) (k : Str) (v : WindowMemory) :
    storeLookup (storeSet st k v) k = some v := by
  induction st with
  | nil => simp [storeSet, storeLookup]
  | cons e rest ih =>
    obtain ⟨k1, v1⟩ := e
    by_cases h : k1 = k
    · simp [storeSet, storeLookup, h]
    · simp [storeSet, storeLookup, h, ih]

theorem storeLookup_set_other (st : Store) (k key : Str) (v : WindowMemory)
    (h : key ≠ k) : storeLookup (storeSet st k v) key = storeLookup st key := by
  induction st with
  | nil =>
    simp only [storeSet, storeLookup]
    rw [if_neg (fun hh => h hh.symm)]
  | cons e rest ih =>
    obtain ⟨k1, v1⟩ := e
    simp only [storeSet]
    by_cases h1 : k1 = k
    · subst h1
      simp only [if_pos rfl, storeLookup]
      rw [if_neg (fun hh => h hh.symm), if_neg (fun hh => h hh.symm)]
    · simp only [if_neg h1, storeLookup]
      by_cases h2 : k1 = key
      · simp [h2]
      · simp [h2, ih]

theorem chosenId_some_ne (env : Env) {c : Str} (h : c ≠ []) :
    chosenId env (some c) = c := by
  simp [chosenId, h]

/-- The exchange list of an optional session (empty when absent). -/
def msgsOf : Option WindowMemory → List (Str × Str)
  | some m => m.msgs
  | none => []

/-- The exchange list stored under a key. -/
def lookMsgs (st : Store) (k : Str) : Option (List (Str × Str)) :=
  (storeLookup st k).map WindowMemory.msgs

theorem aq_cid (env : Env) (st : Store) (q : Str) (cid : Option Str) :
    (answer_question env st q cid).1.conversation_id = chosenId env cid := by
  unfold answer_question
  dsimp only
  split
  · rfl
  · split
    · split
      · rfl
      · rfl
    · rfl

theorem handle_query_success (env : Env) (q : Str) (mem : WindowMemory)
    (he : envSuccessful env) (hq : pyStrip q ≠ []) :
    ∃ out, handle_query env q mem = (out, save_context mem q out) := by
  obtain ⟨hmi, hms, retr, hr, hdocs, hllm⟩ := he
  obtain ⟨docs, hd⟩ := hdocs q
  obtain ⟨t, ht⟩ := hllm ⟨env.domain_instructions, buildContext docs,
    format_chat_history mem, q⟩
  refine ⟨strip_artifacts t, ?_⟩
  unfold handle_query
  simp only [if_neg hq, hr, hd, ht, hms, Bool.false_eq_true, if_false]

theorem aq_success_lookup (env : Env) (st : Store) (q : Str) (cid : Str)
    (he : envSuccessful env) (hc : cid ≠ []) (hq : pyStrip q ≠ []) :
    ∃ a, storeLookup (answer_question env st q (some cid)).2 cid =
      some ⟨msgsOf (storeLookup st cid) ++ [(q, a)]⟩ := by
  have hcid : chosenId env (some cid) = cid := chosenId_some_ne env hc
  have hmi : env.memInitFails = false := he.1
  cases hst : storeLookup st cid with
  | none =>
    obtain ⟨out, hout⟩ := handle_query_success env q emptyMemory he hq
    refine ⟨out, ?_⟩
    unfold answer_question
    dsimp only
    rw [hcid, if_neg hq, hst]
    dsimp only
    rw [hmi]
    simp only [Bool.false_eq_true, if_false]
    rw [hout]
    dsimp only
    rw [storeLookup_set_self]
    simp [save_context, emptyMemory, msgsOf]
  | some m =>
    obtain ⟨out, hout⟩ := handle_query_success env q m he hq
    refine ⟨out, ?_⟩
    unfold answer_question
    dsimp only
    rw [hcid, if_neg hq, hst]
    dsimp only
    rw [hout]
    dsimp only
    rw [storeLookup_set_self]
    simp [save_context, msgsOf]

theorem runConversation_msgs : ∀ (qs : List Str) (env : Env) (cid : Str)
    (st : Store) (m : WindowMemory), envSuccessful env → cid ≠ [] →
    (∀ q ∈ qs, pyStrip q ≠ []) → storeLookup st cid = some m →
    ∃ pairs : List (Str × Str), pairs.map Prod.fst = qs ∧
      storeLookup (runConversation env cid qs st) cid = some ⟨m.msgs ++ pairs⟩ := by
  intro qs
  induction qs with
  | nil =>
    intro env cid st m _ _ _ hst
    refine ⟨[], rfl, ?_⟩
    simpa [runConversation] using hst
  | cons q qs ih =>
    intro env cid st m he hc hq hst
    obtain ⟨a, ha⟩ := aq_success_lookup env st q cid he hc (hq q (by simp))
    rw [hst] at ha
    simp only [msgsOf] at ha
    obtain ⟨pairs, hmap, hlook⟩ :=
      ih env cid _ ⟨m.msgs ++ [(q, a)]⟩ he hc (fun x hx => hq x (by simp [hx])) ha
    refine ⟨(q, a) :: pairs, by simp [hmap], ?_⟩
    simpa [runConversation, List.append_assoc] using hlook

/-- A successful environment used by witnesses: retriever returns no
documents, the completion service answers `ok`. -/
def envOk : Env :=
  { domain_instructions := [], retriever := some fun _ => RetrOutcome.ok [],
    llm := fun _ => GenOutcome.ok (txt "ok"), memSaveFails := false,
    memInitFails := false, freshConvId := txt "u" }

/-- Environment whose memory constructor raises. -/
def envFailMem : Env :=
  { domain_instructions := [], retriever := none,
    llm := fun _ => GenOutcome.otherErr, memSaveFails := false,
    memInitFails := true, freshConvId := txt "u" }

/-- Environment whose retriever invocation raises. -/
def envRetrErr : Env :=
  { domain_instructions := [], retriever := some fun _ => RetrOutcome.err,
    llm := fun _ => GenOutcome.ok [], memSaveFails := false,
    memInitFails := false, freshConvId := txt "u" }

/-- Environment with no retriever (`get_retriever()` returns `None`). -/
def envRetrNone : Env :=
  { domain_instructions := [], retriever := none,
    llm := fun _ => GenOutcome.ok [], memSaveFails := false,
    memInitFails := false, freshConvId := txt "u" }

/-- Environment whose completion service raises `LangChainException`. -/
def envGenLC : Env :=
  { domain_instructions := [], retriever := some fun _ => RetrOutcome.ok [],
    llm := fun _ => GenOutcome.langchainErr, memSaveFails := false,
    memInitFails := false, freshConvId := txt "u" }

/-- C1: for every conversation id and number of successful exchanges, the
session's observable window holds at most `K = 5` exchanges, and after `n`
successful exchanges it holds exactly the most recent `min n 5`
(question, answer) pairs in oldest-first order: the stored message list
pairs up one-to-one with the questions asked, and the window is the
`length - K` drop of it. -/
theorem claim_C1 (env : Env) (cid : Str) (qs : List Str)
    (he : envSuccessful env) (hc : cid ≠ []) (hne : qs ≠ [])
    (hq : ∀ q ∈ qs, pyStrip q ≠ []) :
    ∃ pairs : List (Str × Str), pairs.map Prod.fst = qs ∧
      storeLookup (runConversation env cid qs []) cid = some ⟨pairs⟩ ∧
      windowExchanges ⟨pairs⟩ = pairs.drop (pairs.length - K) ∧
      (windowExchanges ⟨pairs⟩).length = min qs.length K ∧
      (windowExchanges ⟨pairs⟩).length ≤ K := by
  cases qs with
  | nil => exact absurd rfl hne
  | cons q qs =>
    obtain ⟨a, ha⟩ := aq_success_lookup env [] q cid he hc (hq q (by simp))
    simp only [storeLookup, msgsOf, List.nil_append] at ha
    obtain ⟨pairs, hmap, hlook⟩ :=
      runConversation_msgs qs env cid _ ⟨[(q, a)]⟩ he hc
        (fun x hx => hq x (by simp [hx])) ha
    have hplen : pairs.length = qs.length := by
      have := congrArg List.length hmap
      simpa using this
    refine ⟨(q, a) :: pairs, by simp [hmap], ?_, rfl, ?_, ?_⟩
    · simpa [runConversation] using hlook
    · simp [windowExchanges, List.length_drop, List.length_cons, hplen, K]
      omega
    · simp [windowExchanges, List.length_drop, K]
      omega

/-- C1 witness: six successful exchanges on conversation `c1`; only the
most recent five remain in the window. -/
theorem claim_C1_witness :
    ∃ pairs : List (Str × Str),
      pairs.map Prod.fst =
        [txt "q1", txt "q2", txt "q3", txt "q4", txt "q5", txt "q6"] ∧
      storeLookup (runConversation envOk (txt "c1")
        [txt "q1", txt "q2", txt "q3", txt "q4", txt "q5", txt "q6"] [])
        (txt "c1") = some ⟨pairs⟩ ∧
      windowExchanges ⟨pairs⟩ = pairs.drop (pairs.length - K) ∧
      (windowExchanges ⟨pairs⟩).length =
        min ([txt "q1", txt "q2", txt "q3", txt "q4", txt "q5", txt "q6"] :
          List Str).length K ∧
      (windowExchanges ⟨pairs⟩).length ≤ K :=
  claim_C1 envOk (txt "c1")
    [txt "q1", txt "q2", txt "q3", txt "q4", txt "q5", txt "q6"]
    ⟨rfl, rfl, fun _ => RetrOutcome.ok [], rfl, fun _ => ⟨[], rfl⟩,
      fun _ => ⟨txt "ok", rfl⟩⟩
    (by decide) (by decide) (by decide)

/-- C2: for every non-whitespace question and optional conversation id,
`answer_question` (a total function here: every collaborator exception is
an explicit outcome) returns a record carrying both the answer and the
conversation id; the conversation id is the supplied one (fresh when
missing or empty) in every case, and when even the session constructor
fails the answer is the fixed apologetic setup message. -/
theorem claim_C2 (env : Env) (st : Store) (q : Str) (cid : Option Str)
    (hq : pyStrip q ≠ []) :
    (answer_question env st q cid).1.conversation_id = chosenId env cid ∧
    (env.memInitFails = true → storeLookup st (chosenId env cid) = none →
      (answer_question env st q cid).1.answer = msgMemSetup) := by
  refine ⟨aq_cid env st q cid, ?_⟩
  intro hmi hnone
  unfold answer_question
  dsimp only
  rw [if_neg hq, hnone]
  dsimp only
  rw [hmi]
  simp

theorem claim_C2_witness :
    (answer_question envFailMem [] (txt "hi") (some (txt "c1"))).1.conversation_id
      = txt "c1" ∧
    (answer_question envFailMem [] (txt "hi") (some (txt "c1"))).1.answer
      = msgMemSetup := by
  have h := claim_C2 envFailMem [] (txt "hi") (some (txt "c1")) (by decide)
  exact ⟨h.1.trans (by decide), h.2 rfl rfl⟩

theorem aq_unchanged (env : Env) (st : Store) (q : Str) (cid : Option Str)
    (ans : Str) (hq : pyStrip q ≠ []) (hmi : env.memInitFails = false)
    (hh : ∀ m, handle_query env q m = (ans, m)) :
    (answer_question env st q cid).1 = ⟨ans, chosenId env cid⟩ ∧
    lookMsgs (answer_question env st q cid).2 (chosenId env cid) =
      some (msgsOf (storeLookup st (chosenId env cid))) ∧
    (∀ k, k ≠ chosenId env cid →
      storeLookup (answer_question env st q cid).2 k = storeLookup st k) := by
  unfold answer_question
  dsimp only
  rw [if_neg hq]
  cases hst : storeLookup st (chosenId env cid) with
  | none =>
    dsimp only
    rw [hmi]
    simp only [Bool.false_eq_true, if_false]
    rw [hh emptyMemory]
    dsimp only
    refine ⟨rfl, ?_, ?_⟩
    · rw [lookMsgs, storeLookup_set_self]
      simp [emptyMemory, msgsOf]
    · intro k hk
      rw [storeLookup_set_other _ _ _ _ hk, storeLookup_set_other _ _ _ _ hk]
  | some m =>
    dsimp only
    rw [hh m]
    dsimp only
    refine ⟨rfl, ?_, ?_⟩
    · rw [lookMsgs, storeLookup_set_self]
      simp [msgsOf, hst]
    · intro k hk
      rw [storeLookup_set_other _ _ _ _ hk]

theorem handle_query_retr_none (env : Env) (q : Str) (mem : WindowMemory)
    (hq : pyStrip q ≠ []) (h : env.retriever = none) :
    handle_query env q mem = (msgRetrNone, mem) := by
  unfold handle_query
  rw [if_neg hq, h]

theorem handle_query_retr_err (env : Env) (q : Str) (mem : WindowMemory)
    (retr : Str → RetrOutcome) (hq : pyStrip q ≠ [])
    (h : env.retriever = some retr) (he : retr q = RetrOutcome.err) :
    handle_query env q mem = (msgRetrRaise, mem) := by
  unfold handle_query
  rw [if_neg hq, h]
  dsimp only
  rw [he]

/-- C3 counterexample to the claim as stated: with a retriever whose
invocation raises, the returned apology is the could-not-retrieve message,
which differs from the fixed information-system message produced for a
`None` retriever; moreover the store is mutated on that failing turn — an
empty session is created for the previously unseen id `c1`. -/
theorem claim_C3_counterexample :
    (answer_question envRetrErr [] (txt "hi") (some (txt "c1"))).1.answer
      ≠ msgRetrNone ∧
    (answer_question envRetrErr [] (txt "hi") (some (txt "c1"))).1.answer
      = msgRetrRaise ∧
    (answer_question envRetrErr [] (txt "hi") (some (txt "c1"))).2 ≠ ([] : Store) := by
  exact ⟨by decide, by decide, by decide⟩

/-- C3 as amended: a `None` retriever yields the fixed information-system
message while a raising retriever invocation yields the different fixed
could-not-retrieve message; in both cases `answer_question` returns the
text with the resolved conversation id, no exchange history is modified
(the failing turn's session content equals what was stored before, empty
when the id was unseen — a fresh empty session may be created), and every
other key of the store is untouched. -/
theorem claim_C3 (env : Env) (st : Store) (q : Str) (cid : Option Str)
    (hq : pyStrip q ≠ []) (hmi : env.memInitFails = false) :
    ((env.retriever = none →
        (answer_question env st q cid).1 = ⟨msgRetrNone, chosenId env cid⟩) ∧
     (∀ retr, env.retriever = some retr → retr q = RetrOutcome.err →
        (answer_question env st q cid).1 = ⟨msgRetrRaise, chosenId env cid⟩)) ∧
    ((env.retriever = none ∨
        (∃ retr, env.retriever = some retr ∧ retr q = RetrOutcome.err)) →
      lookMsgs (answer_question env st q cid).2 (chosenId env cid) =
        some (msgsOf (storeLookup st (chosenId env cid))) ∧
      (∀ k, k ≠ chosenId env cid →
        storeLookup (answer_question env st q cid).2 k = storeLookup st k)) := by
  refine ⟨⟨?_, ?_⟩, ?_⟩
  · intro h
    exact (aq_unchanged env st q cid msgRetrNone hq hmi
      (fun m => handle_query_retr_none env q m hq h)).1
  · intro retr h he
    exact (aq_unchanged env st q cid msgRetrRaise hq hmi
      (fun m => handle_query_retr_err env q m retr hq h he)).1
  · rintro (h | ⟨retr, h, he⟩)
    · exact (aq_unchanged env st q cid msgRetrNone hq hmi
        (fun m => handle_query_retr_none env q m hq h)).2
    · exact (aq_unchanged env st q cid msgRetrRaise hq hmi
        (fun m => handle_query_retr_err env q m retr hq h he)).2

theorem claim_C3_witness :
    (answer_question envRetrNone [] (txt "hi") (some (txt "c1"))).1
      = ⟨msgRetrNone, txt "c1"⟩ := by
  have h := ((claim_C3 envRetrNone [] (txt "hi") (some (txt "c1"))
    (by decide) rfl).1).1 rfl
  exact h.trans (by decide)

/-- C4: when the completion service fails, the query handler returns the
class-specific fixed apology (`LangChainException` maps to the
try-again-or-contact-support message, any other exception to the generic
unexpected-error message), the session is returned unmodified, and — the
function being total — no exception escapes. -/
theorem claim_C4 (env : Env) (q : Str) (mem : WindowMemory)
    (retr : Str → RetrOutcome) (docs : List Str) (hq : pyStrip q ≠ [])
    (hr : env.retriever = some retr) (hd : retr q = RetrOutcome.ok docs) :
    ((∀ p, env.llm p = GenOutcome.langchainErr) →
      handle_query env q mem = (msgLangchain, mem)) ∧
    ((∀ p, env.llm p = GenOutcome.otherErr) →
      handle_query env q mem = (msgOtherGen, mem)) := by
  constructor <;> intro hl <;> unfold handle_query <;>
    simp only [if_neg hq, hr, hd, hl]

theorem claim_C4_witness :
    handle_query envGenLC (txt "hi") emptyMemory = (msgLangchain, emptyMemory) :=
  (claim_C4 envGenLC (txt "hi") emptyMemory _ [] (by decide) rfl rfl).1
    (fun _ => rfl)

/-- C5: an empty or whitespace-only question short-circuits before any
memory operation: the fixed clarification answer is returned with the
resolved conversation id and the store is returned exactly as it was
(no session created, none modified).  The resolved id is the supplied one
when non-empty and the freshly generated UUID when the id is missing. -/
theorem claim_C5 (env : Env) (st : Store) (q : Str) (cid : Option Str)
    (hq : pyStrip q = []) :
    answer_question env st q cid = (⟨msgNoQuestion, chosenId env cid⟩, st) ∧
    (∀ c, c ≠ [] → chosenId env (some c) = c) ∧
    chosenId env none = env.freshConvId := by
  refine ⟨?_, fun c hc => chosenId_some_ne env hc, rfl⟩
  unfold answer_question
  dsimp only
  rw [if_pos hq]

theorem claim_C5_witness :
    answer_question envOk [] (txt "   ") (some (txt "c9"))
      = (⟨msgNoQuestion, txt "c9"⟩, []) := by
  have h := (claim_C5 envOk [] (txt "   ") (some (txt "c9")) (by decide)).1
  exact h.trans (by decide)

/-- C10: an empty-string conversation id is treated exactly like an absent
one — `conversation_id or str(uuid.uuid4())` replaces it — so the whole
call behaves identically, the returned id is the freshly generated UUID,
and (the UUID being non-empty) the returned id is never the empty
string. -/
theorem claim_C10 (env : Env) (st : Store) (q : Str) :
    answer_question env st q (some []) = answer_question env st q none ∧
    (answer_question env st q (some [])).1.conversation_id = env.freshConvId ∧
    (env.freshConvId ≠ [] →
      (answer_question env st q (some [])).1.conversation_id ≠ []) := by
  have hid : chosenId env (some []) = chosenId env none := by simp [chosenId]
  have hc := aq_cid env st q (some [])
  refine ⟨?_, ?_, ?_⟩
  · unfold answer_question
    rw [hid]
  · rw [hc]
    simp [chosenId]
  · intro hf
    rw [hc]
    simpa [chosenId] using hf

theorem claim_C10_witness :
    (answer_question envOk [] (txt "hi") (some [])).1.conversation_id ≠ [] :=
  (claim_C10 envOk [] (txt "hi")).2.2 (by decide)

theorem matchCI_append : ∀ (pat s t r : Str), matchCI pat s = some r →
    matchCI pat (s ++ t) = some (r ++ t) := by
  intro pat
  induction pat with
  | nil => intro s t r h; cases h; rfl
  | cons p ps ih =>
    intro s t r h
    cases s with
    | nil => simp [matchCI] at h
    | cons c cs =>
      simp only [matchCI] at h ⊢
      split at h
      · rename_i hc
        rw [if_pos hc]
        exact ih cs t r h
      · exact absurd h (by simp)

theorem containsCI_of_matchHead (pat l : Str) (h : (matchCI pat l).isSome = true) :
    containsCI pat l = true := by
  cases l with
  | nil => simpa [containsCI] using h
  | cons c cs => simp [containsCI, h]

theorem containsCI_iff (pat l : Str) : containsCI pat l = true ↔
    ∃ i, (matchCI pat (l.drop i)).isSome = true := by
  induction l with
  | nil =>
    simp only [containsCI, List.drop_nil]
    exact ⟨fun h => ⟨0, h⟩, fun ⟨_, h⟩ => h⟩
  | cons c cs ih =>
    simp only [containsCI, Bool.or_eq_true]
    constructor
    · rintro (h | h)
      · exact ⟨0, h⟩
      · obtain ⟨i, hi⟩ := ih.1 h
        exact ⟨i + 1, by simpa using hi⟩
    · rintro ⟨i, hi⟩
      cases i with
      | zero => exact Or.inl (by simpa using hi)
      | succ i => exact Or.inr (ih.2 ⟨i, by simpa using hi⟩)

theorem containsCI_of_drop (pat l : Str) (k : Nat)
    (h : containsCI pat (l.drop k) = true) : containsCI pat l = true := by
  obtain ⟨i, hi⟩ := (containsCI_iff pat (l.drop k)).1 h
  rw [List.drop_drop] at hi
  exact (containsCI_iff pat l).2 ⟨k + i, hi⟩

theorem containsCI_mono_append (pat a t : Str) (h : containsCI pat a = true) :
    containsCI pat (a ++ t) = true := by
  induction a with
  | nil =>
    simp only [containsCI] at h
    cases hm : matchCI pat [] with
    | none => rw [hm] at h; simp at h
    | some r =>
      exact containsCI_of_matchHead pat t (by
        have := matchCI_append pat [] t r hm
        simp only [List.nil_append] at this
        simp [this])
  | cons c cs ih =>
    simp only [containsCI, Bool.or_eq_true] at h ⊢
    rcases h with h | h
    · obtain ⟨r, hr⟩ := Option.isSome_iff_exists.1 h
      left
      have := matchCI_append pat (c :: cs) t r hr
      rw [List.cons_append] at this
      simp [this]
    · exact Or.inr (ih h)

theorem matchCI_append_split : ∀ (pat a b : Str),
    (matchCI pat (a ++ b)).isSome = true →
    (matchCI pat a).isSome = true ∨
      (a.map Char.toLower = pat.take a.length ∧
        (matchCI (pat.drop a.length) b).isSome = true) := by
  intro pat a
  induction a generalizing pat with
  | nil =>
    intro b h
    right
    simpa using h
  | cons c cs ih =>
    intro b h
    cases pat with
    | nil => left; simp [matchCI]
    | cons p ps =>
      rw [List.cons_append] at h
      simp only [matchCI] at h ⊢
      split at h
      · rename_i hc
        rcases ih ps b h with h1 | ⟨h2, h3⟩
        · left; simpa [if_pos hc] using h1
        · right
          refine ⟨?_, by simpa using h3⟩
          simp [hc, h2]
      · simp at h

theorem containsCI_append_split (pat a b : Str)
    (h : containsCI pat (a ++ b) = true) :
    containsCI pat a = true ∨ containsCI pat b = true ∨
      ∃ i, i < a.length ∧
        (a.drop i).map Char.toLower = pat.take (a.length - i) ∧
        (matchCI (pat.drop (a.length - i)) b).isSome = true := by
  obtain ⟨i, hi⟩ := (containsCI_iff pat (a ++ b)).1 h
  by_cases hia : a.length ≤ i
  · rw [List.drop_append_eq_append_drop, List.drop_of_length_le hia,
      List.nil_append] at hi
    exact Or.inr (Or.inl (containsCI_of_drop pat b _
      (containsCI_of_matchHead _ _ hi)))
  · push_neg at hia
    rw [List.drop_append_of_le_length (Nat.le_of_lt hia)] at hi
    rcases matchCI_append_split pat (a.drop i) b hi with h1 | ⟨h2, h3⟩
    · exact Or.inl (containsCI_of_drop pat a i (containsCI_of_matchHead _ _ h1))
    · refine Or.inr (Or.inr ⟨i, hia, ?_, ?_⟩)
      · rw [List.length_drop] at h2
        exact h2
      · rw [List.length_drop] at h3
        exact h3

theorem matchCI_some_drop : ∀ (pat s r : Str), matchCI pat s = some r →
    r = s.drop pat.length := by
  intro pat
  induction pat with
  | nil => intro s r h; cases h; simp
  | cons p ps ih =>
    intro s r h
    cases s with
    | nil => simp [matchCI] at h
    | cons c cs =>
      simp only [matchCI] at h
      split at h
      · simpa using ih cs r h
      · exact absurd h (by simp)

theorem dropWhile_eq_drop (p : Char → Bool) (l : Str) :
    ∃ k, l.dropWhile p = l.drop k := by
  induction l with
  | nil => exact ⟨0, rfl⟩
  | cons c cs ih =>
    by_cases h : p c
    · obtain ⟨k, hk⟩ := ih
      exact ⟨k + 1, by simpa [List.dropWhile_cons, h] using hk⟩
    · exact ⟨0, by simp [List.dropWhile_cons, h]⟩

theorem dropTrailing_append (l : Str) :
    ∃ t, l = dropTrailingSpaces l ++ t := by
  induction l with
  | nil => exact ⟨[], rfl⟩
  | cons c cs ih =>
    obtain ⟨t, ht⟩ := ih
    simp only [dropTrailingSpaces]
    by_cases h : (dropTrailingSpaces cs).isEmpty && isSpace c
    · refine ⟨c :: cs, ?_⟩
      rw [if_pos h, List.nil_append]
    · refine ⟨t, ?_⟩
      rw [if_neg h, List.cons_append, ← ht]

theorem containsCI_pyStrip (pat l : Str)
    (h : containsCI pat (pyStrip l) = true) : containsCI pat l = true := by
  unfold pyStrip at h
  obtain ⟨t, ht⟩ := dropTrailing_append (dropSpaces l)
  have h2 : containsCI pat (dropSpaces l) = true := by
    rw [ht]
    exact containsCI_mono_append _ _ _ h
  obtain ⟨k, hk⟩ := dropWhile_eq_drop isSpace l
  rw [dropSpaces, hk] at h2
  exact containsCI_of_drop pat l k h2

theorem dropWhile_head_not (p : Char → Bool) : ∀ (l : Str) (c : Char) (cs : Str),
    l.dropWhile p = c :: cs → p c = false := by
  intro l
  induction l with
  | nil => intro c cs h; simp at h
  | cons a as ih =>
    intro c cs h
    by_cases ha : p a
    · rw [List.dropWhile_cons, if_pos ha] at h
      exact ih c cs h
    · rw [List.dropWhile_cons, if_neg ha] at h
      cases h
      simpa using ha

theorem dropTrailing_idem (l : Str) :
    dropTrailingSpaces (dropTrailingSpaces l) = dropTrailingSpaces l := by
  induction l with
  | nil => rfl
  | cons c cs ih =>
    simp only [dropTrailingSpaces]
    by_cases h : (dropTrailingSpaces cs).isEmpty && isSpace c
    · rw [if_pos h]
      rfl
    · rw [if_neg h]
      simp only [dropTrailingSpaces, ih]
      rw [if_neg h]

theorem dropTrailing_headcase (c : Char) (cs : Str) :
    dropTrailingSpaces (c :: cs) = [] ∨
      ∃ r, dropTrailingSpaces (c :: cs) = c :: r := by
  simp only [dropTrailingSpaces]
  by_cases h : (dropTrailingSpaces cs).isEmpty && isSpace c
  · rw [if_pos h]; exact Or.inl rfl
  · rw [if_neg h]; exact Or.inr ⟨_, rfl⟩

theorem pyStrip_idem (l : Str) : pyStrip (pyStrip l) = pyStrip l := by
  unfold pyStrip
  have hw : dropSpaces (dropTrailingSpaces (dropSpaces l))
      = dropTrailingSpaces (dropSpaces l) := by
    cases hd : dropSpaces l with
    | nil => simp [hd, dropTrailingSpaces, dropSpaces]
    | cons c cs =>
      have hc : isSpace c = false := dropWhile_head_not isSpace l c cs hd
      rcases dropTrailing_headcase c cs with h | ⟨r, hr⟩
      · rw [h]; rfl
      · rw [hr, dropSpaces, List.dropWhile_cons, if_neg (by simp [hc])]
  rw [hw, dropTrailing_idem]

theorem pyStrip_fixed {y z : Str} (h : y = pyStrip z) : pyStrip y = y := by
  rw [h, pyStrip_idem]

theorem labelPat_not_in_repl : containsCI labelPat replTxt = false := by decide

theorem emailPat_not_in_repl : containsCI emailPat replTxt = false := by decide

theorem labelPat_pull_side : ∀ j, j < labelPat.length →
    (matchCI (labelPat.drop j) replTxt).isSome = false := by decide

theorem emailPat_pull_side : ∀ j, j < emailPat.length →
    (matchCI (emailPat.drop j) replTxt).isSome = false := by decide

theorem labelPat_span_side : ∀ i, i < replTxt.length →
    ¬((replTxt.drop i).map Char.toLower =
      labelPat.take (replTxt.length - i)) := by decide

theorem emailPat_span_side : ∀ i, i < replTxt.length →
    ¬((replTxt.drop i).map Char.toLower =
      emailPat.take (replTxt.length - i)) := by decide

theorem labelPat_len_lt : labelPat.length < replTxt.length := by decide

theorem emailPat_len_lt : emailPat.length < replTxt.length := by decide

theorem sub3F_pull (pat : Str)
    (hside : ∀ j, j < pat.length → (matchCI (pat.drop j) replTxt).isSome = false)
    (hlen : pat.length < replTxt.length) :
    ∀ (fuel : Nat) (x : Str), x.length ≤ fuel → ∀ j, j < pat.length →
    (matchCI (pat.drop j) (sub3F fuel x)).isSome = true →
    (matchCI (pat.drop j) x).isSome = true := by
  intro fuel
  induction fuel with
  | zero =>
    intro x hx j hj h
    have hx0 : x = [] := List.eq_nil_of_length_eq_zero (Nat.le_zero.1 hx)
    subst hx0
    simpa [sub3F] using h
  | succ fuel ih =>
    intro x hx j hj h
    cases x with
    | nil => simpa [sub3F] using h
    | cons c cs =>
      have hcs : cs.length ≤ fuel := by
        simp only [List.length_cons] at hx
        omega
      cases hm : matchCI emailPat (c :: cs) with
      | none =>
        simp only [sub3F, hm] at h
        cases hd : pat.drop j with
        | nil =>
          have : pat.length ≤ j := List.drop_eq_nil_iff.1 hd
          omega
        | cons p ps =>
          rw [hd] at h
          simp only [matchCI] at h ⊢
          by_cases hc : c.toLower = p
          · rw [if_pos hc] at h ⊢
            have hps : pat.drop (j + 1) = ps := by
              have h1 : pat.drop (j + 1) = (pat.drop j).drop 1 := by
                rw [List.drop_drop]
              rw [h1, hd]
              rfl
            by_cases hj1 : j + 1 < pat.length
            · rw [← hps] at h ⊢
              exact ih cs hcs (j + 1) hj1 h
            · have hpse : ps = [] := by
                rw [← hps]
                exact List.drop_eq_nil_of_le (by omega)
              rw [hpse]
              simp [matchCI]
          · rw [if_neg hc] at h
            simp at h
      | some r =>
        simp only [sub3F, hm] at h
        rcases matchCI_append_split (pat.drop j) replTxt (sub3F fuel r) h
          with h1 | ⟨h2, h3⟩
        · rw [hside j hj] at h1
          exact absurd h1 (by simp)
        · have hlen2 := congrArg List.length h2
          simp only [List.length_map, List.length_take, List.length_drop] at hlen2
          omega

theorem sub3F_keeps_noLabel : ∀ (fuel : Nat) (x : Str), x.length ≤ fuel →
    containsCI labelPat x = false →
    containsCI labelPat (sub3F fuel x) = false := by
  intro fuel
  induction fuel with
  | zero =>
    intro x hx hc
    have hx0 : x = [] := List.eq_nil_of_length_eq_zero (Nat.le_zero.1 hx)
    subst hx0
    simpa [sub3F] using hc
  | succ fuel ih =>
    intro x hx hc
    cases x with
    | nil => simpa [sub3F] using hc
    | cons c cs =>
      have hcs : cs.length ≤ fuel := by
        simp only [List.length_cons] at hx
        omega
      rw [containsCI, Bool.or_eq_false_iff] at hc
      obtain ⟨hc1, hc2⟩ := hc
      cases hm : matchCI emailPat (c :: cs) with
      | none =>
        simp only [sub3F, hm]
        rw [containsCI, Bool.or_eq_false_iff]
        refine ⟨?_, ih cs hcs hc2⟩
        by_contra hb
        rw [Bool.not_eq_false] at hb
        have h0 : (matchCI (labelPat.drop 0) (sub3F (fuel + 1) (c :: cs))).isSome
            = true := by
          simpa [sub3F, hm] using hb
        have hpull := sub3F_pull labelPat labelPat_pull_side labelPat_len_lt
          (fuel + 1) (c :: cs) hx 0 (by decide) h0
        rw [List.drop_zero] at hpull
        rw [hc1] at hpull
        exact absurd hpull (by simp)
      | some r =>
        simp only [sub3F, hm]
        by_contra hb
        rw [Bool.not_eq_false] at hb
        rcases containsCI_append_split labelPat replTxt (sub3F fuel r) hb
          with h1 | h1 | ⟨i, hi, hspan, -⟩
        · rw [labelPat_not_in_repl] at h1
          exact absurd h1 (by simp)
        · have hlen17 : emailPat.length = 17 := by decide
          have hml := matchCI_length emailPat (c :: cs) r hm
          have hrlen : r.length ≤ fuel := by
            simp only [List.length_cons] at hml
            omega
          have hrd : r = (c :: cs).drop emailPat.length :=
            matchCI_some_drop _ _ _ hm
          have hnr : containsCI labelPat r = false := by
            by_contra hb2
            rw [Bool.not_eq_false] at hb2
            rw [hrd] at hb2
            have hcx := containsCI_of_drop labelPat (c :: cs) _ hb2
            rw [containsCI, Bool.or_eq_false_iff.2 ⟨hc1, hc2⟩] at hcx
            exact absurd hcx (by simp)
          rw [ih r hrlen hnr] at h1
          exact absurd h1 (by simp)
        · exact labelPat_span_side i hi hspan

theorem sub3F_noEmail : ∀ (fuel : Nat) (x : Str), x.length ≤ fuel →
    containsCI emailPat (sub3F fuel x) = false := by
  intro fuel
  induction fuel with
  | zero =>
    intro x hx
    have hx0 : x = [] := List.eq_nil_of_length_eq_zero (Nat.le_zero.1 hx)
    subst hx0
    simp [sub3F]
    decide
  | succ fuel ih =>
    intro x hx
    cases x with
    | nil =>
      simp [sub3F]
      decide
    | cons c cs =>
      have hcs : cs.length ≤ fuel := by
        simp only [List.length_cons] at hx
        omega
      cases hm : matchCI emailPat (c :: cs) with
      | none =>
        simp only [sub3F, hm]
        rw [containsCI, Bool.or_eq_false_iff]
        refine ⟨?_, ih cs hcs⟩
        by_contra hb
        rw [Bool.not_eq_false] at hb
        have h0 : (matchCI (emailPat.drop 0) (sub3F (fuel + 1) (c :: cs))).isSome
            = true := by
          simpa [sub3F, hm] using hb
        have hpull := sub3F_pull emailPat emailPat_pull_side emailPat_len_lt
          (fuel + 1) (c :: cs) hx 0 (by decide) h0
        rw [List.drop_zero, hm] at hpull
        exact absurd hpull (by simp)
      | some r =>
        simp only [sub3F, hm]
        by_contra hb
        rw [Bool.not_eq_false] at hb
        rcases containsCI_append_split emailPat replTxt (sub3F fuel r) hb
          with h1 | h1 | ⟨i, hi, hspan, -⟩
        · rw [emailPat_not_in_repl] at h1
          exact absurd h1 (by simp)
        · have hml := matchCI_length emailPat (c :: cs) r hm
          have hrlen : r.length ≤ fuel := by
            have hlen17 : emailPat.length = 17 := by decide
            simp only [List.length_cons] at hml
            omega
          rw [ih r hrlen] at h1
          exact absurd h1 (by simp)
        · exact emailPat_span_side i hi hspan

theorem sub1_id (x : Str) (h : containsCI labelPat x = false) : sub1 x = x := by
  unfold sub1
  cases hm : matchCI labelPat x with
  | none => rfl
  | some r =>
    have hc : containsCI labelPat x = true :=
      containsCI_of_matchHead _ _ (by simp [hm])
    rw [h] at hc
    exact absurd hc (by simp)

theorem trySub2_contains (s r : Str) (h : trySub2 s = some r) :
    containsCI labelPat s = true := by
  cases s with
  | nil => simp [trySub2] at h
  | cons c rest =>
    simp only [trySub2] at h
    split at h
    · split at h
      · rename_i r2 hm
        have hd : containsCI labelPat (dropSpaces rest) = true :=
          containsCI_of_matchHead _ _ (by simp [hm])
        obtain ⟨k, hk⟩ := dropWhile_eq_drop isSpace rest
        rw [dropSpaces, hk] at hd
        have hr := containsCI_of_drop labelPat rest k hd
        simp [containsCI, hr]
      · exact absurd h (by simp)
    · exact absurd h (by simp)

theorem sub2F_id : ∀ (fuel : Nat) (x : Str), x.length ≤ fuel →
    containsCI labelPat x = false → sub2F fuel x = x := by
  intro fuel
  induction fuel with
  | zero =>
    intro x hx _
    have hx0 : x = [] := List.eq_nil_of_length_eq_zero (Nat.le_zero.1 hx)
    subst hx0
    rfl
  | succ fuel ih =>
    intro x hx hc
    cases x with
    | nil => rfl
    | cons c cs =>
      have hcs : cs.length ≤ fuel := by
        simp only [List.length_cons] at hx
        omega
      rw [containsCI, Bool.or_eq_false_iff] at hc
      cases ht : trySub2 (c :: cs) with
      | some r =>
        have := trySub2_contains _ _ ht
        rw [containsCI, Bool.or_eq_false_iff.2 hc] at this
        exact absurd this (by simp)
      | none =>
        simp only [sub2F, ht]
        rw [ih cs hcs hc.2]

theorem sub3F_id : ∀ (fuel : Nat) (x : Str), x.length ≤ fuel →
    containsCI emailPat x = false → sub3F fuel x = x := by
  intro fuel
  induction fuel with
  | zero =>
    intro x hx _
    have hx0 : x = [] := List.eq_nil_of_length_eq_zero (Nat.le_zero.1 hx)
    subst hx0
    rfl
  | succ fuel ih =>
    intro x hx hc
    cases x with
    | nil => rfl
    | cons c cs =>
      have hcs : cs.length ≤ fuel := by
        simp only [List.length_cons] at hx
        omega
      rw [containsCI, Bool.or_eq_false_iff] at hc
      cases hm : matchCI emailPat (c :: cs) with
      | some r =>
        have hcm : containsCI emailPat (c :: cs) = true :=
          containsCI_of_matchHead _ _ (by simp [hm])
        rw [containsCI, Bool.or_eq_false_iff.2 hc] at hcm
        exact absurd hcm (by simp)
      | none =>
        simp only [sub3F, hm]
        rw [ih cs hcs hc.2]

theorem sub2F_fuel : ∀ (f1 f2 : Nat) (x : Str), x.length ≤ f1 → x.length ≤ f2 →
    sub2F f1 x = sub2F f2 x := by
  intro f1
  induction f1 with
  | zero =>
    intro f2 x h1 _
    have hx0 : x = [] := List.eq_nil_of_length_eq_zero (Nat.le_zero.1 h1)
    subst hx0
    cases f2 <;> rfl
  | succ f1 ih =>
    intro f2 x h1 h2
    cases x with
    | nil => cases f2 <;> rfl
    | cons c cs =>
      cases f2 with
      | zero =>
        simp only [List.length_cons] at h2
        omega
      | succ f2 =>
        simp only [List.length_cons] at h1 h2
        cases ht : trySub2 (c :: cs) with
        | some r =>
          have hr := trySub2_length (c :: cs) r ht
          simp only [List.length_cons] at hr
          simp only [sub2F, ht]
          rw [ih f2 r (by omega) (by omega)]
        | none =>
          simp only [sub2F, ht]
          rw [ih f2 cs (by omega) (by omega)]

theorem sub3F_fuel : ∀ (f1 f2 : Nat) (x : Str), x.length ≤ f1 → x.length ≤ f2 →
    sub3F f1 x = sub3F f2 x := by
  intro f1
  induction f1 with
  | zero =>
    intro f2 x h1 _
    have hx0 : x = [] := List.eq_nil_of_length_eq_zero (Nat.le_zero.1 h1)
    subst hx0
    cases f2 <;> rfl
  | succ f1 ih =>
    intro f2 x h1 h2
    cases x with
    | nil => cases f2 <;> rfl
    | cons c cs =>
      cases f2 with
      | zero =>
        simp only [List.length_cons] at h2
        omega
      | succ f2 =>
        simp only [List.length_cons] at h1 h2
        cases hm : matchCI emailPat (c :: cs) with
        | some r =>
          have hr := matchCI_length emailPat (c :: cs) r hm
          have hlen17 : emailPat.length = 17 := by decide
          simp only [List.length_cons] at hr
          simp only [sub3F, hm]
          rw [ih f2 r (by omega) (by omega)]
        | none =>
          simp only [sub3F, hm]
          rw [ih f2 cs (by omega) (by omega)]

theorem sub2_id (x : Str) (h : containsCI labelPat x = false) : sub2 x = x :=
  sub2F_id x.length x (Nat.le_refl _) h

theorem sub3_id_noEmail (x : Str) (h : containsCI emailPat x = false) :
    sub3 x = x :=
  sub3F_id x.length x (Nat.le_refl _) h

theorem sub3_keeps_noLabel (x : Str) (h : containsCI labelPat x = false) :
    containsCI labelPat (sub3 x) = false :=
  sub3F_keeps_noLabel x.length x (Nat.le_refl _) h

theorem sub3_noEmail (x : Str) : containsCI emailPat (sub3 x) = false :=
  sub3F_noEmail x.length x (Nat.le_refl _)

theorem noLabelCI_pyStrip (x : Str) (h : containsCI labelPat x = false) :
    containsCI labelPat (pyStrip x) = false := by
  by_contra hb
  rw [Bool.not_eq_false] at hb
  rw [containsCI_pyStrip labelPat x hb] at h
  exact absurd h (by simp)

theorem noEmailCI_pyStrip (x : Str) (h : containsCI emailPat x = false) :
    containsCI emailPat (pyStrip x) = false := by
  by_contra hb
  rw [Bool.not_eq_false] at hb
  rw [containsCI_pyStrip emailPat x hb] at h
  exact absurd h (by simp)

theorem strip_artifacts_noLabel_eq (x : Str)
    (h : containsCI labelPat x = false) :
    strip_artifacts x = pyStrip (sub3 (pyStrip x)) := by
  unfold strip_artifacts
  rw [sub1_id x h, sub2_id (pyStrip x) (noLabelCI_pyStrip x h), pyStrip_idem]

/-- C6 counterexample: the sanitizer is not idempotent.  On
`"  Final Answer: hi"` the anchored first pass does not fire (the text
starts with spaces), stripping then exposes the label, and only a second
sanitization removes it. -/
theorem claim_C6_counterexample :
    strip_artifacts (txt "  Final Answer: hi") = txt "Final Answer: hi" ∧
    strip_artifacts (strip_artifacts (txt "  Final Answer: hi")) = txt "hi" ∧
    strip_artifacts (strip_artifacts (txt "  Final Answer: hi"))
      ≠ strip_artifacts (txt "  Final Answer: hi") :=
  ⟨by decide, by decide, by decide⟩

/-- C6 as amended: the sanitizer is idempotent on every text that contains
no case-insensitive occurrence of the scaffolding label `Final Answer:`
(in general a pass can expose a further occurrence of the label, which
needs another pass). -/
theorem claim_C6 (x : Str) (h : containsCI labelPat x = false) :
    strip_artifacts (strip_artifacts x) = strip_artifacts x := by
  have hy : strip_artifacts x = pyStrip (sub3 (pyStrip x)) :=
    strip_artifacts_noLabel_eq x h
  have hyl : containsCI labelPat (strip_artifacts x) = false := by
    rw [hy]
    exact noLabelCI_pyStrip _ (sub3_keeps_noLabel _ (noLabelCI_pyStrip x h))
  have hye : containsCI emailPat (strip_artifacts x) = false := by
    rw [hy]
    exact noEmailCI_pyStrip _ (sub3_noEmail _)
  have hfix : pyStrip (strip_artifacts x) = strip_artifacts x := pyStrip_fixed hy
  calc strip_artifacts (strip_artifacts x)
      = pyStrip (sub3 (pyStrip (sub2 (pyStrip (sub1 (strip_artifacts x)))))) :=
        rfl
    _ = strip_artifacts x := by
        rw [sub1_id _ hyl, hfix, sub2_id _ hyl, hfix, sub3_id_noEmail _ hye,
          hfix]

theorem claim_C6_witness :
    strip_artifacts (strip_artifacts (txt " hello [EMAIL PROTECTED] "))
      = strip_artifacts (txt " hello [EMAIL PROTECTED] ") :=
  claim_C6 _ (by decide)

theorem isSpace_toLower (c : Char) (h : isSpace c = true) : c.toLower = c := by
  simp only [isSpace, Bool.or_eq_true, beq_iff_eq] at h
  rcases h with ((((h | h) | h) | h) | h) | h <;> subst h <;> decide

theorem matchCI_exact : ∀ (l pat s : Str), l.map Char.toLower = pat →
    matchCI pat (l ++ s) = some s := by
  intro l
  induction l with
  | nil =>
    intro pat s h
    simp only [List.map_nil] at h
    subst h
    rfl
  | cons c cs ih =>
    intro pat s h
    rw [List.map_cons] at h
    subst h
    simp only [List.cons_append, matchCI, if_pos rfl]
    exact ih _ s rfl

theorem dropSpaces_append_all (w z : Str) (hw : ∀ c ∈ w, isSpace c = true) :
    dropSpaces (w ++ z) = dropSpaces z := by
  induction w with
  | nil => rfl
  | cons c cs ih =>
    rw [List.cons_append, dropSpaces, List.dropWhile_cons,
      if_pos (hw c (List.mem_cons_self c cs))]
    exact ih (fun x hx => hw x (List.mem_cons_of_mem c hx))

theorem dropSpaces_nospace_head (c : Char) (l : Str) (h : isSpace c = false) :
    dropSpaces (c :: l) = c :: l := by
  simp [dropSpaces, List.dropWhile_cons, h]

theorem label_head_nospace (l : Str) (h : l.map Char.toLower = labelPat) :
    ∃ c l2, l = c :: l2 ∧ isSpace c = false := by
  cases l with
  | nil => exact absurd h (by decide)
  | cons c l2 =>
    refine ⟨c, l2, rfl, ?_⟩
    rw [List.map_cons,
      show labelPat = 'f' :: txt "inal answer:" from by decide] at h
    have hc : c.toLower = 'f' := by injection h
    by_contra hb
    rw [Bool.not_eq_false] at hb
    rw [isSpace_toLower c hb] at hc
    subst hc
    exact absurd hb (by decide)

/-- C7: the three rewrite passes do what the spec says, case-insensitively:
the first removes a leading scaffolding label and its trailing whitespace
exactly when the text begins with the label; the second removes the label
after a newline (and any whitespace around it) collapsing to a line break,
and is the identity on label-free text; the third replaces each occurrence
of the placeholder email pattern with the substitute phrase and is the
identity on texts without the pattern.  The quantification over `l` and
`e` with `map Char.toLower` covers every casing of the label and the
pattern. -/
theorem claim_C7 :
    (∀ l s : Str, l.map Char.toLower = labelPat →
      sub1 (l ++ s) = dropSpaces s) ∧
    (∀ x : Str, matchCI labelPat x = none → sub1 x = x) ∧
    (∀ w l s : Str, (∀ c ∈ w, isSpace c = true) →
      l.map Char.toLower = labelPat →
      sub2 ('\n' :: (w ++ (l ++ s))) = '\n' :: sub2 (dropSpaces s)) ∧
    (∀ x : Str, containsCI labelPat x = false → sub2 x = x) ∧
    (∀ e s : Str, e.map Char.toLower = emailPat →
      sub3 (e ++ s) = replTxt ++ sub3 s) ∧
    (∀ x : Str, containsCI emailPat x = false → sub3 x = x) := by
  refine ⟨?_, ?_, ?_, fun x => sub2_id x, ?_, fun x => sub3_id_noEmail x⟩
  · intro l s hl
    unfold sub1
    rw [matchCI_exact l labelPat s hl]
  · intro x hm
    unfold sub1
    rw [hm]
  · intro w l s hw hl
    obtain ⟨c, l2, rfl, hc⟩ := label_head_nospace l hl
    have hd : dropSpaces (w ++ (c :: (l2 ++ s))) = c :: (l2 ++ s) := by
      rw [dropSpaces_append_all w _ hw, dropSpaces_nospace_head c _ hc]
    have hmx : matchCI labelPat (c :: (l2 ++ s)) = some s := by
      have h0 := matchCI_exact (c :: l2) labelPat s hl
      rwa [List.cons_append] at h0
    have htry : trySub2 ('\n' :: (w ++ ((c :: l2) ++ s)))
        = some (dropSpaces s) := by
      simp [trySub2, hd, hmx]
    show sub2F (('\n' :: (w ++ ((c :: l2) ++ s))).length) _ = _
    rw [List.length_cons]
    simp only [sub2F, htry]
    rw [sub2F_fuel (w ++ ((c :: l2) ++ s)).length (dropSpaces s).length
      (dropSpaces s)
      (by
        have h1 := dropSpaces_length_le s
        simp only [List.length_append, List.length_cons]
        omega)
      (Nat.le_refl _)]
    rfl
  · intro e s he
    have hel : e.length = emailPat.length := by
      rw [← List.length_map e Char.toLower, he]
    cases e with
    | nil => exact absurd hel (by decide)
    | cons c e2 =>
      have hm : matchCI emailPat (c :: (e2 ++ s)) = some s := by
        have h0 := matchCI_exact (c :: e2) emailPat s he
        rwa [List.cons_append] at h0
      rw [List.cons_append]
      show sub3F ((c :: (e2 ++ s)).length) (c :: (e2 ++ s)) = replTxt ++ sub3 s
      rw [List.length_cons]
      simp only [sub3F, hm]
      rw [sub3F_fuel (e2 ++ s).length s.length s
        (by simp only [List.length_append]; omega) (Nat.le_refl _)]
      rfl

theorem claim_C7_witness :
    sub1 (txt "FINAL ANSWER:" ++ txt "  ok") = dropSpaces (txt "  ok") ∧
    sub2 ('\n' :: (txt " " ++ (txt "Final Answer:" ++ txt " ok")))
      = '\n' :: sub2 (dropSpaces (txt " ok")) ∧
    sub3 (txt "[EMAIL Protected]" ++ txt "!") = replTxt ++ sub3 (txt "!") :=
  ⟨claim_C7.1 _ _ (by decide),
   claim_C7.2.2.1 _ _ _ (by decide) (by decide),
   claim_C7.2.2.2.2.1 _ _ (by decide)⟩

/-- C9: the sanitizer's result never has leading or trailing whitespace
(each pass ends in a whole-string strip), and an input with surrounding
whitespace is altered even without any label or placeholder. -/
theorem claim_C9 (s : Str) :
    pyStrip (strip_artifacts s) = strip_artifacts s ∧
    strip_artifacts (txt "  hello  ") = txt "hello" :=
  ⟨pyStrip_fixed rfl, by decide⟩

/-- The three statements of the sanitizer's `try` block: each is one
`re.sub` rewrite followed by `.strip()`, rebinding `output`. -/
def sanStep1 (s : Str) : Str := pyStrip (sub1 s)

def sanStep2 (s : Str) : Str := pyStrip (sub2 s)

def sanStep3 (s : Str) : Str := pyStrip (sub3 s)

/-- Run the `try` body with a fault oracle: `fault i = true` means the
`i`-th statement raises before rebinding `output`; the raised error
carries the current value of `output`. -/
def sanRun (fault : Nat → Bool) : List (Str → Str) → Nat → Str → Except Str Str
  | [], _, cur => Except.ok cur
  | f :: fs, i, cur =>
    if fault i then Except.error cur else sanRun fault fs (i + 1) (f cur)

/-- `strip_artifacts` with the fault oracle: the `except` handler returns
the current binding of `output`, whatever pass it reached. -/
def strip_artifactsF (fault : Nat → Bool) (s : Str) : Str :=
  match sanRun fault [sanStep1, sanStep2, sanStep3] 0 s with
  | Except.ok r => r
  | Except.error cur => cur

/-- Fault oracle raising in the second rewrite pass. -/
def faultAt1 : Nat → Bool := fun i => i == 1

/-- C8 counterexample: an internal failure in the second pass is caught,
but the handler returns the rebound `output` — the result of the first
pass — not the original input text. -/
theorem claim_C8_counterexample :
    faultAt1 1 = true ∧
    strip_artifactsF faultAt1 (txt "Final Answer: hi") = txt "hi" ∧
    strip_artifactsF faultAt1 (txt "Final Answer: hi") ≠ txt "Final Answer: hi" :=
  ⟨rfl, by decide, by decide⟩

/-- C8 as amended: the sanitizer never raises — every fault pattern yields
a result — and an internal failure at pass `i` is caught and returns the
text produced by the passes before `i`; that is the original input exactly
when the first pass fails (and with no fault the result is the full
sanitization). -/
theorem claim_C8 (fault : Nat → Bool) (s : Str) :
    (fault 0 = true ∧ strip_artifactsF fault s = s) ∨
    (fault 0 = false ∧ fault 1 = true ∧
      strip_artifactsF fault s = sanStep1 s) ∨
    (fault 0 = false ∧ fault 1 = false ∧ fault 2 = true ∧
      strip_artifactsF fault s = sanStep2 (sanStep1 s)) ∨
    (fault 0 = false ∧ fault 1 = false ∧ fault 2 = false ∧
      strip_artifactsF fault s = strip_artifacts s) := by
  cases h0 : fault 0 with
  | true => exact Or.inl ⟨rfl, by simp [strip_artifactsF, sanRun, h0]⟩
  | false =>
    cases h1 : fault 1 with
    | true =>
      exact Or.inr (Or.inl ⟨rfl, rfl, by
        simp [strip_artifactsF, sanRun, h0, h1]⟩)
    | false =>
      cases h2 : fault 2 with
      | true =>
        exact Or.inr (Or.inr (Or.inl ⟨rfl, rfl, rfl, by
          simp [strip_artifactsF, sanRun, h0, h1, h2]⟩))
      | false =>
        refine Or.inr (Or.inr (Or.inr ⟨rfl, rfl, rfl, ?_⟩))
        simp only [strip_artifactsF, sanRun, h0, h1, h2, Bool.false_eq_true,
          if_false]
        rfl
